import Mathlib

/-!
Verification of the Vicon utilities module (`src/notebooks/src_vicon_utils.py`).

The module has three algorithmic parts, shallowly embedded below:
- `read_vicon_csv`: header reconstruction (forward fill of the marker-name
  row, flattened column labels), table loading and the all-missing column
  drop;
- `find_xyz_cols`: resolution of a marker token to its X/Y/Z column labels
  via the regular expression `(?:^|:)\s*token_([XYZ])\b` (IGNORECASE) applied
  to the label with space characters removed;
- `motion_quantity_point`: cumulative Euclidean path length over consecutive
  samples, skipping non-finite steps.

Strings are modelled by Lean `String` (a wrapper around `List Char`); Python
`str.strip` is modelled on ASCII whitespace; the regex classes `\s`, `\w` and
the case folding of `re.IGNORECASE` are modelled on their ASCII parts, which
is exact for all inputs the module is documented to handle.  Floating point
numbers are modelled by `Option ℝ` where `none` stands for a non-finite value
(NaN or an infinity); real arithmetic abstracts from rounding and overflow.
-/

/-- ASCII model of Python's whitespace class (`str.strip` and regex `\s`). -/
def isPySpace (c : Char) : Bool :=
  c = ' ' || c = '\t' || c = '\n' || c = '\r' || c = '\x0b' || c = '\x0c'

/-- Trim whitespace from both ends of a character list (Python `str.strip`). -/
def trimChars (l : List Char) : List Char :=
  ((l.dropWhile (fun c => isPySpace c)).reverse.dropWhile (fun c => isPySpace c)).reverse

/-- Python `str.strip` on the string level, as used by `read_vicon_csv`. -/
def pyStrip (s : String) : String := String.mk (trimChars s.data)

/-- The forward-fill loop of `read_vicon_csv` (lines 55-62): the accumulator
`last` holds the most recent non-blank stripped marker name. -/
def fillAux (last : String) : List String → List String
  | [] => []
  | m :: ms =>
    if pyStrip m = "" then last :: fillAux last ms
    else pyStrip m :: fillAux (pyStrip m) ms

/-- Forward fill of the (padded) marker-name row, starting from `last = ""`. -/
def forwardFillRow (row : List String) : List String := fillAux "" row

/-- Flattened column labels from the filled marker row and the axis row
(lines 65-75 of the source). -/
def buildColnames (filled axisRow : List String) : List String :=
  (filled.zip axisRow).map (fun p =>
    let m := pyStrip p.1
    let a := pyStrip p.2
    if a = "Frame" ∨ a = "Sub Frame" then a
    else if a = "X" ∨ a = "Y" ∨ a = "Z" then m ++ "_" ++ a
    else if m ≠ "" then m else a)

/-- Header reconstruction (lines 46-75): pad the marker and axis rows to a
common length, forward fill the marker row, and flatten. -/
def reconstructHeader (markerRow axisRow : List String) : List String :=
  let n := max markerRow.length axisRow.length
  let mr := markerRow ++ List.replicate (n - markerRow.length) ""
  let ar := axisRow ++ List.replicate (n - axisRow.length) ""
  buildColnames (forwardFillRow mr) ar

/-- Errors surfaced by the embedded reader.  `stopIteration` is what
`next(reader)` raises on an exhausted file and `unicodeDecodeError` what a
strict text decode raises on an invalid byte sequence.  The constructor
`malformedHeaderError` is modelled from the spec: the spec names a
`MalformedHeaderError` failure mode, but the code never defines or raises
such an exception. -/
inductive PyError
  | stopIteration
  | unicodeDecodeError
  | malformedHeaderError
  deriving DecidableEq

/-- Reading the five header rows (line 44): `[next(reader) for _ in range(5)]`
takes the first five rows and lets the iterator's `StopIteration` escape when
the file has fewer than five lines. -/
def read_header_rows (rows : List (List String)) : Except PyError (List (List String)) :=
  if rows.length < 5 then .error .stopIteration else .ok (rows.take 5)

/-- Column `j` of the data rows; a cell that is absent in a row is a missing
value. -/
def colAt {α : Type} (rows : List (List (Option α))) (j : Nat) : List (Option α) :=
  rows.map (fun r => (r[j]?).bind id)

/-- The loaded table before the drop step: one column per reconstructed
label, in label order (models `pd.read_csv(..., names=colnames)` for numeric
rows, with cells that are missing parsed as missing values). -/
def mkTable {α : Type} (colnames : List String) (rows : List (List (Option α))) :
    List (String × List (Option α)) :=
  (List.range colnames.length).map (fun j => ((colnames[j]?).getD "", colAt rows j))

/-- `df.dropna(axis=1, how="all")` (line 78): keep a column exactly when it
has at least one non-missing value. -/
def dropna_all {α : Type} (t : List (String × List (Option α))) :
    List (String × List (Option α)) :=
  t.filter (fun col => col.2.any (fun v => v.isSome))

/-- Table loading followed by the all-missing column drop (lines 77-78). -/
def load_table {α : Type} (colnames : List String) (rows : List (List (Option α))) :
    List (String × List (Option α)) :=
  dropna_all (mkTable colnames rows)

/-- The whole of `read_vicon_csv` over an already decoded and row-split file:
read five header rows (or fail as the code does), reconstruct the labels from
rows 3 and 4, load the data rows, drop all-missing columns. -/
def read_vicon_csv {α : Type} (headerRows : List (List String))
    (dataRows : List (List (Option α))) :
    Except PyError (List (String × List (Option α))) :=
  match read_header_rows headerRows with
  | .error e => .error e
  | .ok hdr =>
    let colnames := reconstructHeader ((hdr[2]?).getD []) ((hdr[3]?).getD [])
    .ok (load_table colnames dataRows)


/-- A unit of the raw byte stream of the file: either a validly encoded
scalar value or an invalid byte sequence. -/
inductive ByteUnit
  | chr (c : Char)
  | invalid
  deriving DecidableEq

/-- The Unicode replacement character produced by `errors="replace"`. -/
def replacementChar : Char := '�'

/-- Decoding of the header read (line 42): the file is opened with
`encoding="utf-8", errors="replace"`, so an invalid sequence decodes to the
replacement character and decoding never fails. -/
def header_decode : List ByteUnit → List Char
  | [] => []
  | .chr c :: r => c :: header_decode r
  | .invalid :: r => replacementChar :: header_decode r

/-- Decoding of the data read (line 77): `pd.read_csv` is called without
`encoding_errors`, whose default is `"strict"`, so an invalid sequence
raises a `UnicodeDecodeError`. -/
def data_decode : List ByteUnit → Except PyError (List Char)
  | [] => .ok []
  | .chr c :: r =>
    match data_decode r with
    | .ok cs => .ok (c :: cs)
    | .error e => .error e
  | .invalid :: _ => .error .unicodeDecodeError

/-- ASCII model of the regex word class `\w`, used for the `\b` boundary. -/
def isWordChar (c : Char) : Bool := c.isAlphanum || c = '_'

/-- `c.replace(" ", "")` on the character list: remove space characters
(only the space character, not other whitespace). -/
def removeSpaces (l : List Char) : List Char := l.filter (fun c => c != ' ')

/-- Removal of every whitespace character, the reading used by the spec
sentence about whitespace-stripped labels. -/
def stripWS (l : List Char) : List Char := l.filter (fun c => !isPySpace c)

/-- Case-insensitive literal prefix match: strip `t` from the front of `l`
comparing characters after `Char.toLower`, returning the rest on success.
This is how the escaped token literal matches under `re.IGNORECASE`. -/
def stripTokCI : List Char → List Char → Option (List Char)
  | [], l => some l
  | _ :: _, [] => none
  | t :: ts, c :: cs => if c.toLower = t.toLower then stripTokCI ts cs else none

/-- The six characters matched by `([XYZ])` under `re.IGNORECASE`. -/
def axisChar (c : Char) : Bool :=
  c = 'X' || c = 'Y' || c = 'Z' || c = 'x' || c = 'y' || c = 'z'

/-- The `\b` boundary placed after the axis letter (a word character):
it holds when the rest is empty or starts with a non-word character. -/
def noWordStart : List Char → Bool
  | [] => true
  | c :: _ => !isWordChar c

/-- Match `token_([XYZ])\b` at the head of `l`, returning the upper-cased
axis letter on success (the code applies `.upper()` to the group). -/
def tokAxis (tok l : List Char) : Option Char :=
  match stripTokCI tok l with
  | some (u :: a :: rest) =>
    if u = '_' && axisChar a && noWordStart rest then some a.toUpper else none
  | _ => none

/-- Match `\s*token_([XYZ])\b` at the head of `l`: the greedy `\s*` consumes
the longest whitespace run first and backtracks one character at a time. -/
def wsThenTok (tok : List Char) : List Char → Option Char
  | [] => tokAxis tok []
  | c :: cs =>
    if isPySpace c then
      match wsThenTok tok cs with
      | some a => some a
      | none => tokAxis tok (c :: cs)
    else tokAxis tok (c :: cs)

/-- `re.search` of `(?:^|:)\s*token_([XYZ])\b`: try each start position left
to right; at a position the `^` alternative applies only at the very start
(`first = true`), then the `:` alternative consumes a colon. -/
def reScan (tok : List Char) : Bool → List Char → Option Char
  | first, [] => if first then wsThenTok tok [] else none
  | first, c :: cs =>
    match (if first then wsThenTok tok (c :: cs) else none) with
    | some a => some a
    | none =>
      match (if c = ':' then wsThenTok tok cs else none) with
      | some a => some a
      | none => reScan tok false cs

/-- Lines 109-111 of the source: one column either matches no axis or
matches exactly one axis, the group of the first regex match in the label
with spaces removed. -/
def matchAxis (tok label : List Char) : Option Char :=
  reScan tok true (removeSpaces label)

/-- Line 113: a new match is stored if the axis is unseen, or if the length
of the new label with spaces removed is strictly below the length of the
stored original label (`len(c_str) < len(str(found[axis]))`). -/
def updFound (old : Option String) (c : String) (n : Nat) : Option String :=
  match old with
  | none => some c
  | some o => if n < o.length then some c else some o

/-- One iteration of the column loop of `find_xyz_cols` over the found map
(modelled as a function from axis letters to stored columns). -/
def stepFound (tok : String) (f : Char → Option String) (c : String) :
    Char → Option String :=
  match matchAxis tok.data c.data with
  | none => f
  | some a => fun ax =>
    if ax = a then updFound (f a) c (removeSpaces c.data).length else f ax

/-- `find_xyz_cols` (lines 82-115): fold the column loop over the labels and
return the entries stored for X, Y and Z. -/
def find_xyz_cols (cols : List String) (tok : String) :
    Option String × Option String × Option String :=
  let f := cols.foldl (stepFound tok) (fun _ => none)
  (f 'X', f 'Y', f 'Z')

/- Specification-side definitions, written from the spec's words, to be
compared with the definitions above that embed the source. -/

/-- The matching condition stated by the spec for the Marker Resolver, at
the start of a label: the token (case-insensitively), then `_`, then the
axis letter (case-insensitively), then a word boundary. -/
def specAt (tok : List Char) (A : Char) (l : List Char) : Bool :=
  match stripTokCI tok l with
  | some (u :: a :: rest) => u == '_' && a.toLower == A.toLower && noWordStart rest
  | _ => false

/-- The spec condition somewhere after a `:` separator: scan for a colon
followed immediately by the start-anchored condition. -/
def specScan (tok : List Char) (A : Char) : List Char → Bool
  | [] => false
  | c :: cs => (c == ':' && specAt tok A cs) || specScan tok A cs

/-- The full matching condition of the spec sentence: the token followed by
`_` and the axis letter occurs at the start of the (whitespace-stripped)
label or immediately after a `:` separator, followed by a word boundary. -/
def specCond (tok : List Char) (A : Char) (l : List Char) : Bool :=
  specAt tok A l || specScan tok A l

/-- Left-to-right fold that keeps the stored label and replaces it only by a
strictly shorter one; this is the tie-break the spec describes when label
lengths and stripped label lengths agree. -/
def keepShorter (acc : Option String) (c : String) : Option String :=
  match acc with
  | none => some c
  | some o => if c.length < o.length then some c else some o

/-- The earliest label of minimal length in a list (none when empty). -/
def shortestFirst (l : List String) : Option String := l.foldl keepShorter none

/-- Does `pat` match case-insensitively at the head of `l`? -/
def isCIPrefix (pat l : List Char) : Bool := (stripTokCI pat l).isSome

/-- Number of positions of `l` (including the empty final position) at which
`pat` matches case-insensitively. -/
def countSubCI (pat : List Char) : List Char → Nat
  | [] => if isCIPrefix pat [] then 1 else 0
  | c :: cs => (if isCIPrefix pat (c :: cs) then 1 else 0) + countSubCI pat cs

/- The motion quantity calculator.  A cell of the extracted N x 3 array is
an `Option ℝ`: `none` models a non-finite float (NaN or an infinity), and
real arithmetic abstracts from rounding and overflow, so every arithmetic
operation below propagates `none` and produces finite values otherwise. -/

/-- Subtraction on possibly non-finite values (NaN/infinity propagates). -/
def osub : Option ℝ → Option ℝ → Option ℝ
  | some a, some b => some (a - b)
  | _, _ => none

/-- Multiplication on possibly non-finite values. -/
def omul : Option ℝ → Option ℝ → Option ℝ
  | some a, some b => some (a * b)
  | _, _ => none

/-- Addition on possibly non-finite values. -/
def oadd : Option ℝ → Option ℝ → Option ℝ
  | some a, some b => some (a + b)
  | _, _ => none

/-- Square root on possibly non-finite values (the argument is a sum of
squares, hence nonnegative, so the real square root is exact). -/
noncomputable def osqrt : Option ℝ → Option ℝ
  | some a => some (Real.sqrt a)
  | none => none

/-- One row of `np.diff(arr, axis=0)`: componentwise difference of two
consecutive sample rows. -/
def subR3 (nxt prv : Option ℝ × Option ℝ × Option ℝ) :
    Option ℝ × Option ℝ × Option ℝ :=
  (osub nxt.1 prv.1, osub nxt.2.1 prv.2.1, osub nxt.2.2 prv.2.2)

/-- `np.sqrt((d ** 2).sum(axis=1))` for one difference row. -/
noncomputable def stepLen (d : Option ℝ × Option ℝ × Option ℝ) : Option ℝ :=
  osqrt (oadd (oadd (omul d.1 d.1) (omul d.2.1 d.2.1)) (omul d.2.2 d.2.2))

/-- `motion_quantity_point` (lines 117-143): difference consecutive rows,
take each step's Euclidean length, keep the finite ones
(`step[np.isfinite(step)]`), and return their sum and their count. -/
noncomputable def motion_quantity_point
    (rows : List (Option ℝ × Option ℝ × Option ℝ)) : ℝ × Nat :=
  let steps := (List.zipWith subR3 rows.tail rows).map stepLen
  let finiteSteps := steps.filterMap id
  (finiteSteps.sum, finiteSteps.length)

/-- The Euclidean distance between two consecutive sample points as the
spec words it, defined when both endpoints are fully finite. -/
noncomputable def euclidStep :
    (Option ℝ × Option ℝ × Option ℝ) → (Option ℝ × Option ℝ × Option ℝ) → Option ℝ
  | (some px, some py, some pz), (some qx, some qy, some qz) =>
    some (Real.sqrt ((qx - px) ^ 2 + (qy - py) ^ 2 + (qz - pz) ^ 2))
  | _, _ => none

/-- The spec's description of the motion quantity result: the sum of the
Euclidean distances over the included consecutive-row steps, paired with the
number of included steps. -/
noncomputable def motionSpec (rows : List (Option ℝ × Option ℝ × Option ℝ)) : ℝ × Nat :=
  let ds := (rows.zip rows.tail).filterMap (fun pq => euclidStep pq.1 pq.2)
  (ds.sum, ds.length)

/-- Projections of the `find_xyz_cols` result, for use in proofs. -/
theorem find_xyz_cols_fst (cols : List String) (tok : String) :
    (find_xyz_cols cols tok).1 = (cols.foldl (stepFound tok) (fun _ => none)) 'X' := rfl

/-- Projection of the Y component of the `find_xyz_cols` result. -/
theorem find_xyz_cols_snd (cols : List String) (tok : String) :
    (find_xyz_cols cols tok).2.1 = (cols.foldl (stepFound tok) (fun _ => none)) 'Y' := rfl

/-- Projection of the Z component of the `find_xyz_cols` result. -/
theorem find_xyz_cols_thd (cols : List String) (tok : String) :
    (find_xyz_cols cols tok).2.2 = (cols.foldl (stepFound tok) (fun _ => none)) 'Z' := rfl
/- Forward fill: auxiliary lemmas. -/

/-- If every cell up to position `i` is blank after stripping, the fill
carries the accumulator through to position `i`. -/
theorem fillAux_all_blank (last : String) (row : List String) (i : Nat) (ci : String)
    (hrow : row[i]? = some ci)
    (hall : ∀ k ck, k ≤ i → row[k]? = some ck → pyStrip ck = "") :
    (fillAux last row)[i]? = some last := by
  induction row generalizing last i with
  | nil => simp at hrow
  | cons m ms ih =>
    have hm : pyStrip m = "" := hall 0 m (Nat.zero_le _) (by simp)
    rw [fillAux, if_pos hm]
    cases i with
    | zero => simp
    | succ n =>
      simp only [List.getElem?_cons_succ] at hrow ⊢
      exact ih last n hrow (fun k ck hk h => hall (k + 1) ck (Nat.succ_le_succ hk) (by simpa using h))

/-- If position `j` is the last non-blank cell before a blank position `i`,
the fill puts the stripped cell of position `j` at position `i`. -/
theorem fillAux_from (last : String) (row : List String) (i j : Nat) (ci cj : String)
    (hij : j < i)
    (hi : row[i]? = some ci) (hbi : pyStrip ci = "")
    (hj : row[j]? = some cj) (hbj : pyStrip cj ≠ "")
    (hmid : ∀ k ck, j < k → k < i → row[k]? = some ck → pyStrip ck = "") :
    (fillAux last row)[i]? = some (pyStrip cj) := by
  induction row generalizing last i j with
  | nil => simp at hi
  | cons m ms ih =>
    cases j with
    | zero =>
      have hm : m = cj := by simpa using hj
      subst hm
      rw [fillAux, if_neg hbj]
      cases i with
      | zero => omega
      | succ n =>
        simp only [List.getElem?_cons_succ] at hi ⊢
        refine fillAux_all_blank (pyStrip m) ms n ci hi ?_
        intro k ck hk hkc
        rcases Nat.lt_or_ge k n with hlt | hge
        · exact hmid (k + 1) ck (Nat.succ_pos _) (by omega)
            (by simpa using hkc)
        · have hkn : k = n := by omega
          subst hkn
          rw [hi] at hkc
          cases hkc
          exact hbi
    | succ j' =>
      cases i with
      | zero => omega
      | succ n =>
        have hi' : ms[n]? = some ci := by simpa using hi
        have hj' : ms[j']? = some cj := by simpa using hj
        have hmid' : ∀ k ck, j' < k → k < n → ms[k]? = some ck → pyStrip ck = "" := by
          intro k ck h1 h2 h3
          exact hmid (k + 1) ck (Nat.succ_lt_succ h1) (Nat.succ_lt_succ h2)
            (by simpa using h3)
        by_cases hm : pyStrip m = ""
        · rw [fillAux, if_pos hm]
          simp only [List.getElem?_cons_succ]
          exact ih last n j' (by omega) hi' hj' hmid'
        · rw [fillAux, if_neg hm]
          simp only [List.getElem?_cons_succ]
          exact ih (pyStrip m) n j' (by omega) hi' hj' hmid'

/-- Claim C1: the Header Reconstructor forward-fills the marker-name row left
to right.  For a blank position `i` (after trimming): if some earlier
position `j` holds a non-blank trimmed cell and every cell strictly between
`j` and `i` is blank, then the marker name used at `i` is the trimmed cell of
position `j`; and if every cell up to and including `i` is blank, the marker
name at `i` remains the empty string. -/
theorem forward_fill_spec (row : List String) (i : Nat) (ci : String)
    (hi : row[i]? = some ci) (hbi : pyStrip ci = "") :
    (∀ j cj, j < i → row[j]? = some cj → pyStrip cj ≠ "" →
      (∀ k ck, j < k → k < i → row[k]? = some ck → pyStrip ck = "") →
      (forwardFillRow row)[i]? = some (pyStrip cj))
    ∧ ((∀ k ck, k ≤ i → row[k]? = some ck → pyStrip ck = "") →
      (forwardFillRow row)[i]? = some "") := by
  constructor
  · intro j cj hij hj hbj hmid
    exact fillAux_from "" row i j ci cj hij hi hbi hj hbj hmid
  · intro hall
    exact fillAux_all_blank "" row i ci hi hall

/-- Witness for C1 at a concrete header row: in `["arm", " ", ""]` position 2
is blank and position 0 is the last non-blank cell before it, so the fill
uses `"arm"` there. -/
theorem forward_fill_spec_witness :
    (forwardFillRow ["arm", " ", ""])[2]? = some (pyStrip "arm") := by
  refine (forward_fill_spec ["arm", " ", ""] 2 "" (by decide) (by decide)).1
    0 "arm" (by omega) (by decide) (by decide) ?_
  intro k ck h1 h2 h3
  interval_cases k
  · have : ck = " " := by
      simpa using h3.symm
    subst this
    decide
example : find_xyz_cols ["Frame", "Sub Frame", "wrist_L_X", "wrist_L_Y", "wrist_L_Z"] "wrist_L"
    = (some "wrist_L_X", some "wrist_L_Y", some "wrist_L_Z") := by decide

example : find_xyz_cols ["Patient 1:poignet_D_X", "Patient 1:poignet_D_Y"] "poignet_D"
    = (some "Patient 1:poignet_D_X", some "Patient 1:poignet_D_Y", none) := by decide

example : find_xyz_cols ["forearm_X", "forearm_Y", "forearm_Z"] "arm" = (none, none, none) := by
  decide

/- Soundness of the embedded regex search. -/

/-- A successful case-insensitive strip decomposes the list. -/
theorem stripTokCI_sound (t : List Char) :
    ∀ (l r : List Char), stripTokCI t l = some r →
    ∃ mid, l = mid ++ r ∧ mid.map Char.toLower = t.map Char.toLower := by
  induction t with
  | nil =>
    intro l r h
    obtain rfl : l = r := by simpa [stripTokCI] using h
    exact ⟨[], rfl, rfl⟩
  | cons c ts ih =>
    intro l r h
    cases l with
    | nil => simp [stripTokCI] at h
    | cons d ds =>
      rw [stripTokCI] at h
      split_ifs at h with hc
      obtain ⟨mid, hmid, hmap⟩ := ih ds r h
      exact ⟨d :: mid, by simp [hmid], by simp [hmap, hc]⟩

/-- A case-insensitively equal prefix strips off, leaving the rest. -/
theorem stripTokCI_complete (t : List Char) :
    ∀ (mid w : List Char), mid.map Char.toLower = t.map Char.toLower →
    stripTokCI t (mid ++ w) = some w := by
  induction t with
  | nil =>
    intro mid w h
    have : mid = [] := by simpa using congrArg List.length h
    subst this
    rfl
  | cons c ts ih =>
    intro mid w h
    cases mid with
    | nil => simp at h
    | cons d ds =>
      simp only [List.map_cons, List.cons.injEq] at h
      rw [List.cons_append, stripTokCI, if_pos h.1]
      exact ih ds w h.2

/-- Stripping a concatenated pattern strips the two parts in sequence. -/
theorem stripTokCI_append (p q : List Char) :
    ∀ (l : List Char), stripTokCI (p ++ q) l = (stripTokCI p l).bind (stripTokCI q) := by
  induction p with
  | nil => intro l; simp [stripTokCI]
  | cons c ps ih =>
    intro l
    cases l with
    | nil => simp [stripTokCI]
    | cons d ds =>
      rw [List.cons_append, stripTokCI, stripTokCI]
      split_ifs with hc
      · exact ih ds
      · simp

/-- A successful `tokAxis` match decomposes the list into a case-insensitive
copy of the token, an underscore, an axis letter and a word boundary. -/
theorem tokAxis_sound (tok l : List Char) (a : Char) (h : tokAxis tok l = some a) :
    ∃ mid ax rest, l = mid ++ '_' :: ax :: rest
      ∧ mid.map Char.toLower = tok.map Char.toLower
      ∧ axisChar ax = true ∧ noWordStart rest = true ∧ a = ax.toUpper := by
  unfold tokAxis at h
  cases hs : stripTokCI tok l with
  | none => rw [hs] at h; cases h
  | some r =>
    rw [hs] at h
    cases r with
    | nil => simp at h
    | cons u r' =>
      cases r' with
      | nil => simp at h
      | cons ax rest =>
        have h' : (if (decide (u = '_') && axisChar ax && noWordStart rest) = true
            then some ax.toUpper else none) = some a := h
        split_ifs at h' with hcond
        simp only [Bool.and_eq_true, decide_eq_true_eq] at hcond
        obtain ⟨⟨hu, hax⟩, hb⟩ := hcond
        obtain ⟨mid, hmid, hmap⟩ := stripTokCI_sound tok l (u :: ax :: rest) hs
        subst hu
        exact ⟨mid, ax, rest, hmid, hmap, hax, hb, (Option.some.inj h').symm⟩

/-- `tokAxis` succeeds with axis `X` on the token itself followed by `_X`. -/
theorem tokAxis_self (tok : List Char) :
    tokAxis tok (tok ++ ['_', 'X']) = some 'X' := by
  unfold tokAxis
  rw [stripTokCI_complete tok tok ['_', 'X'] rfl]
  rfl

/-- A successful `wsThenTok` match skips a whitespace run and then matches
`tokAxis` on the rest. -/
theorem wsThenTok_sound (tok : List Char) :
    ∀ (l : List Char) (a : Char), wsThenTok tok l = some a →
    ∃ ws rest, l = ws ++ rest ∧ (∀ c ∈ ws, isPySpace c = true)
      ∧ tokAxis tok rest = some a := by
  intro l
  induction l with
  | nil =>
    intro a h
    exact ⟨[], [], rfl, by simp, by simpa [wsThenTok] using h⟩
  | cons c cs ih =>
    intro a h
    rw [wsThenTok] at h
    split_ifs at h with hsp
    · cases hw : wsThenTok tok cs with
      | some a0 =>
        rw [hw] at h
        obtain rfl : a0 = a := by simpa using h
        obtain ⟨ws, rest, h1, h2, h3⟩ := ih a0 hw
        refine ⟨c :: ws, rest, by simp [h1], ?_, h3⟩
        intro x hx
        rcases List.mem_cons.mp hx with rfl | hxs
        · exact hsp
        · exact h2 x hxs
      | none =>
        rw [hw] at h
        exact ⟨[], c :: cs, rfl, by simp, h⟩
    · exact ⟨[], c :: cs, rfl, by simp, h⟩

/-- `wsThenTok` succeeds whenever `tokAxis` succeeds with no skipping. -/
theorem wsThenTok_isSome (tok l : List Char) (a : Char) (h : tokAxis tok l = some a) :
    (wsThenTok tok l).isSome = true := by
  cases l with
  | nil => simp [wsThenTok, h]
  | cons c cs =>
    rw [wsThenTok]
    split_ifs with hsp
    · cases hw : wsThenTok tok cs with
      | some a0 => simp
      | none => simp [h]
    · simp [h]

/-- A successful search decomposes the string at a valid anchor: either the
very start of the string, or just after a colon. -/
theorem reScan_sound (tok : List Char) :
    ∀ (l : List Char) (first : Bool) (a : Char), reScan tok first l = some a →
    ∃ u v, l = u ++ v ∧ wsThenTok tok v = some a
      ∧ ((u = [] ∧ first = true) ∨ ∃ u0, u = u0 ++ [':']) := by
  intro l
  induction l with
  | nil =>
    intro first a h
    rw [reScan] at h
    split_ifs at h with hf
    exact ⟨[], [], rfl, h, Or.inl ⟨rfl, hf⟩⟩
  | cons c cs ih =>
    intro first a h
    rw [reScan] at h
    cases h1 : (if first then wsThenTok tok (c :: cs) else none) with
    | some a0 =>
      rw [h1] at h
      obtain rfl : a0 = a := by simpa using h
      have hfirst : first = true := by
        cases first
        · simp at h1
        · rfl
      have hw : wsThenTok tok (c :: cs) = some a0 := by
        rw [hfirst] at h1
        simpa using h1
      exact ⟨[], c :: cs, rfl, hw, Or.inl ⟨rfl, hfirst⟩⟩
    | none =>
      rw [h1] at h
      cases h2 : (if c = ':' then wsThenTok tok cs else none) with
      | some a0 =>
        rw [h2] at h
        obtain rfl : a0 = a := by simpa using h
        have hc : c = ':' := by
          by_cases hcc : c = ':'
          · exact hcc
          · simp [hcc] at h2
        have hw : wsThenTok tok cs = some a0 := by
          rw [hc] at h2
          simpa using h2
        exact ⟨[':'], cs, by rw [hc]; rfl, hw, Or.inr ⟨[], rfl⟩⟩
      | none =>
        rw [h2] at h
        obtain ⟨u, v, hl, hw, hu⟩ := ih false a h
        rcases hu with ⟨rfl, hfalse⟩ | ⟨u0, rfl⟩
        · cases hfalse
        · exact ⟨c :: (u0 ++ [':']), v, by simp [hl], hw, Or.inr ⟨c :: u0, by simp⟩⟩

/-- The search succeeds whenever some suffix just after a colon matches. -/
theorem reScan_isSome (tok : List Char) :
    ∀ (u : List Char) (v : List Char) (first : Bool),
    (wsThenTok tok v).isSome = true →
    (reScan tok first (u ++ ':' :: v)).isSome = true := by
  intro u
  induction u with
  | nil =>
    intro v first hw
    rw [List.nil_append, reScan]
    cases h1 : (if first then wsThenTok tok (':' :: v) else none) with
    | some a0 => simp
    | none =>
      obtain ⟨a, ha⟩ := Option.isSome_iff_exists.mp hw
      simp [ha]
  | cons d ds ih =>
    intro v first hw
    rw [List.cons_append, reScan]
    cases h1 : (if first then wsThenTok tok (d :: (ds ++ ':' :: v)) else none) with
    | some a0 => simp
    | none =>
      cases h2 : (if d = ':' then wsThenTok tok (ds ++ ':' :: v) else none) with
      | some a0 => simp [h2]
      | none => simpa [h2] using ih v false hw

/- The column fold of `find_xyz_cols`. -/

/-- A column with no match leaves the found map unchanged. -/
theorem stepFound_none (tok : String) (f : Char → Option String) (c : String)
    (hm : matchAxis tok.data c.data = none) : stepFound tok f c = f := by
  unfold stepFound
  rw [hm]

/-- A column matching axis `a` updates the `a` entry and no other. -/
theorem stepFound_some (tok : String) (f : Char → Option String) (c : String)
    (a : Char) (hm : matchAxis tok.data c.data = some a) (ax : Char) :
    stepFound tok f c ax
      = if ax = a then updFound (f a) c (removeSpaces c.data).length else f ax := by
  unfold stepFound
  rw [hm]

/-- A stored entry after an update is the new column or the old entry. -/
theorem updFound_eq (old : Option String) (c : String) (n : Nat) (c' : String)
    (h : updFound old c n = some c') : c' = c ∨ old = some c' := by
  cases old with
  | none => exact Or.inl (Option.some.inj h).symm
  | some o =>
    have h' : (if n < o.length then some c else some o) = some c' := h
    split_ifs at h'
    · exact Or.inl (Option.some.inj h').symm
    · exact Or.inr h'

/-- An update always stores something. -/
theorem updFound_isSome (old : Option String) (c : String) (n : Nat) :
    (updFound old c n).isSome = true := by
  cases old with
  | none => rfl
  | some o =>
    show ((if n < o.length then some c else some o : Option String)).isSome = true
    split_ifs <;> rfl

/-- Soundness of the fold: a stored column was either stored before the fold
or is a member of the processed columns matching the same axis. -/
theorem foldFound_sound (tok : String) (cols : List String) :
    ∀ (f : Char → Option String) (A : Char) (c : String),
    (cols.foldl (stepFound tok) f) A = some c →
    f A = some c ∨ (c ∈ cols ∧ matchAxis tok.data c.data = some A) := by
  induction cols with
  | nil => intro f A c h; exact Or.inl h
  | cons d ds ih =>
    intro f A c h
    rw [List.foldl_cons] at h
    rcases ih (stepFound tok f d) A c h with h1 | ⟨hmem, hma⟩
    · cases hm : matchAxis tok.data d.data with
      | none =>
        rw [stepFound_none tok f d hm] at h1
        exact Or.inl h1
      | some a =>
        rw [stepFound_some tok f d a hm A] at h1
        by_cases hAa : A = a
        · rw [if_pos hAa] at h1
          subst hAa
          rcases updFound_eq (f A) d _ c h1 with rfl | hold
          · exact Or.inr ⟨List.mem_cons_self _ _, hm⟩
          · exact Or.inl hold
        · rw [if_neg hAa] at h1
          exact Or.inl h1
    · exact Or.inr ⟨List.mem_cons_of_mem d hmem, hma⟩

/-- The fold never clears a stored entry. -/
theorem foldFound_mono (tok : String) (cols : List String) :
    ∀ (f : Char → Option String) (A : Char),
    (f A).isSome = true → ((cols.foldl (stepFound tok) f) A).isSome = true := by
  induction cols with
  | nil => intro f A h; exact h
  | cons d ds ih =>
    intro f A h
    rw [List.foldl_cons]
    refine ih (stepFound tok f d) A ?_
    cases hm : matchAxis tok.data d.data with
    | none => rw [stepFound_none tok f d hm]; exact h
    | some a =>
      rw [stepFound_some tok f d a hm A]
      by_cases hAa : A = a
      · rw [if_pos hAa]
        exact updFound_isSome _ _ _
      · rw [if_neg hAa]
        exact h

/-- Completeness of the fold: a processed column that matches axis `A`
guarantees a stored entry for `A`. -/
theorem foldFound_complete (tok : String) (cols : List String) :
    ∀ (f : Char → Option String) (A : Char) (c : String),
    c ∈ cols → matchAxis tok.data c.data = some A →
    ((cols.foldl (stepFound tok) f) A).isSome = true := by
  induction cols with
  | nil => intro f A c h; cases h
  | cons d ds ih =>
    intro f A c hmem hma
    rw [List.foldl_cons]
    rcases List.mem_cons.mp hmem with rfl | hds
    · refine foldFound_mono tok ds (stepFound tok f c) A ?_
      rw [stepFound_some tok f c A hma A, if_pos rfl]
      exact updFound_isSome _ _ _
    · exact ih (stepFound tok f d) A c hds hma

/- Relating a code match to the spec condition. -/

/-- The spec condition holds at the start of a decomposed match. -/
theorem specAt_intro (tok : List Char) (A : Char) (mid : List Char) (ax : Char)
    (rest : List Char) (hmap : mid.map Char.toLower = tok.map Char.toLower)
    (hax : ax.toLower = A.toLower) (hb : noWordStart rest = true) :
    specAt tok A (mid ++ '_' :: ax :: rest) = true := by
  unfold specAt
  rw [stripTokCI_complete tok mid ('_' :: ax :: rest) hmap]
  simp [hax, hb]

/-- The spec condition holds after a colon of a decomposed match. -/
theorem specScan_intro (tok : List Char) (A : Char) (u0 v : List Char)
    (h : specAt tok A v = true) : specScan tok A (u0 ++ ':' :: v) = true := by
  induction u0 with
  | nil => simp [specScan, h]
  | cons d ds ih => simp [specScan, ih]

/-- The lower case of an axis letter equals the lower case of its upper
case. -/
theorem axisChar_lower (ax : Char) (h : axisChar ax = true) :
    ax.toLower = (ax.toUpper).toLower := by
  have h6 : ax = 'X' ∨ ax = 'Y' ∨ ax = 'Z' ∨ ax = 'x' ∨ ax = 'y' ∨ ax = 'z' := by
    have h0 := h
    simp only [axisChar, Bool.or_eq_true, decide_eq_true_eq] at h0
    tauto
  rcases h6 with rfl | rfl | rfl | rfl | rfl | rfl <;> decide

/-- On a label whose whitespace consists of spaces only, removing the spaces
removes all whitespace. -/
theorem stripWS_eq_removeSpaces (l : List Char)
    (hws : ∀ ch ∈ l, isPySpace ch = true → ch = ' ') :
    stripWS l = removeSpaces l := by
  unfold stripWS removeSpaces
  apply List.filter_congr
  intro ch hch
  by_cases hc : ch = ' '
  · subst hc; decide
  · have hnsp : isPySpace ch = false := by
      cases hq : isPySpace ch
      · rfl
      · exact absurd (hws ch hch hq) hc
    simp [hnsp, hc]

/-- A match of the embedded regex on a label whose whitespace consists of
spaces only satisfies the spec condition on the whitespace-stripped label. -/
theorem matchAxis_spec (tok l : List Char) (A : Char)
    (hws : ∀ ch ∈ l, isPySpace ch = true → ch = ' ')
    (h : matchAxis tok l = some A) :
    specCond tok A (stripWS l) = true := by
  have hsw : stripWS l = removeSpaces l := stripWS_eq_removeSpaces l hws
  unfold matchAxis at h
  obtain ⟨u, v, hl, hw, hanch⟩ := reScan_sound tok (removeSpaces l) true A h
  obtain ⟨ws, rest, hv, hwsp, hta⟩ := wsThenTok_sound tok v A hw
  have hws0 : ws = [] := by
    cases ws with
    | nil => rfl
    | cons w wtl =>
      exfalso
      have hw1 : w ∈ removeSpaces l := by
        rw [hl, hv]
        simp
      have hw2 : isPySpace w = true := hwsp w (by simp)
      have hw3 := List.mem_filter.mp hw1
      have hw4 := hws w hw3.1 hw2
      rw [hw4] at hw3
      simp at hw3
  subst hws0
  rw [List.nil_append] at hv
  rw [hv] at hl
  obtain ⟨mid, ax, rest2, hrest, hmap, hax, hb, ha⟩ := tokAxis_sound tok rest A hta
  subst ha
  rw [hrest] at hl
  rw [hsw, hl]
  have haxA : ax.toLower = (ax.toUpper).toLower := axisChar_lower ax hax
  rcases hanch with ⟨rfl, _⟩ | ⟨u0, rfl⟩
  · rw [List.nil_append]
    unfold specCond
    rw [specAt_intro tok (ax.toUpper) mid ax rest2 hmap haxA hb]
    rfl
  · have h1 : (u0 ++ [':']) ++ (mid ++ '_' :: ax :: rest2)
        = u0 ++ ':' :: (mid ++ '_' :: ax :: rest2) := by simp
    rw [h1]
    unfold specCond
    rw [specScan_intro tok (ax.toUpper) u0 (mid ++ '_' :: ax :: rest2)
      (specAt_intro tok (ax.toUpper) mid ax rest2 hmap haxA hb)]
    simp

/-- Any column stored by the fold for axis `A` satisfies the spec condition
on its whitespace-stripped label (labels with space-only whitespace). -/
theorem find_component_spec (cols : List String) (tok : String) (A : Char) (c : String)
    (hcols : ∀ c' ∈ cols, ∀ ch ∈ c'.data, isPySpace ch = true → ch = ' ')
    (h : (cols.foldl (stepFound tok) (fun _ => none)) A = some c) :
    specCond tok.data A (stripWS c.data) = true := by
  rcases foldFound_sound tok cols (fun _ => none) A c h with h1 | ⟨hmem, hma⟩
  · cases h1
  · exact matchAxis_spec tok.data c.data A (hcols c hmem) hma

/-- Claim C2 (amended): for labels containing no whitespace other than the
space character, the Marker Resolver returns a column for axis A only when,
after removing whitespace from the label, the token followed by an
underscore and the axis letter occurs (case-insensitively, as the spec's
matching rule states) at the start of the label or immediately after a colon
separator, followed by a word boundary; and in particular, on the columns
`forearm_X, forearm_Y, forearm_Z` with token `arm` it returns
`(None, None, None)`. -/
theorem resolver_matches_only_anchored :
    (∀ (cols : List String) (tok : String),
      (∀ c ∈ cols, ∀ ch ∈ c.data, isPySpace ch = true → ch = ' ') →
      (∀ c, (find_xyz_cols cols tok).1 = some c →
        specCond tok.data 'X' (stripWS c.data) = true)
      ∧ (∀ c, (find_xyz_cols cols tok).2.1 = some c →
        specCond tok.data 'Y' (stripWS c.data) = true)
      ∧ (∀ c, (find_xyz_cols cols tok).2.2 = some c →
        specCond tok.data 'Z' (stripWS c.data) = true))
    ∧ find_xyz_cols ["forearm_X", "forearm_Y", "forearm_Z"] "arm" = (none, none, none) := by
  constructor
  · intro cols tok hcols
    refine ⟨?_, ?_, ?_⟩
    · intro c h
      rw [find_xyz_cols_fst] at h
      exact find_component_spec cols tok 'X' c hcols h
    · intro c h
      rw [find_xyz_cols_snd] at h
      exact find_component_spec cols tok 'Y' c hcols h
    · intro c h
      rw [find_xyz_cols_thd] at h
      exact find_component_spec cols tok 'Z' c hcols h
  · decide

/-- Witness for the amended C2 at a concrete input: the resolver matches the
label `b:wrist_X` for token `wrist`, and indeed the spec condition holds on
it. -/
theorem resolver_matches_only_anchored_witness :
    specCond "wrist".data 'X' (stripWS "b:wrist_X".data) = true :=
  ((resolver_matches_only_anchored.1 ["b:wrist_X"] "wrist" (by decide)).1
    "b:wrist_X" (by decide))

/-- Counterexample to C2 as stated: on the label `wrist_X<TAB>q` (a tab
between the axis letter and a following word character) the resolver does
match token `wrist` for axis X, because the code removes only spaces before
searching and the regex boundary `\b` sees the tab, yet the spec condition
fails on the whitespace-stripped label `wrist_Xq`, where the axis letter is
followed by a word character. -/
theorem resolver_only_when_cex :
    (find_xyz_cols ["wrist_X\tq"] "wrist").1 = some "wrist_X\tq"
    ∧ specCond "wrist".data 'X' (stripWS "wrist_X\tq".data) = false := by
  constructor
  · decide
  · decide

/-- Claim C10: every stored component of the `find_xyz_cols` result is one
of the input column labels verbatim. -/
theorem resolver_returns_verbatim (cols : List String) (tok : String) :
    (∀ c, (find_xyz_cols cols tok).1 = some c → c ∈ cols)
    ∧ (∀ c, (find_xyz_cols cols tok).2.1 = some c → c ∈ cols)
    ∧ (∀ c, (find_xyz_cols cols tok).2.2 = some c → c ∈ cols) := by
  refine ⟨?_, ?_, ?_⟩
  · intro c h
    rw [find_xyz_cols_fst] at h
    rcases foldFound_sound tok cols (fun _ => none) 'X' c h with h1 | ⟨hmem, _⟩
    · cases h1
    · exact hmem
  · intro c h
    rw [find_xyz_cols_snd] at h
    rcases foldFound_sound tok cols (fun _ => none) 'Y' c h with h1 | ⟨hmem, _⟩
    · cases h1
    · exact hmem
  · intro c h
    rw [find_xyz_cols_thd] at h
    rcases foldFound_sound tok cols (fun _ => none) 'Z' c h with h1 | ⟨hmem, _⟩
    · cases h1
    · exact hmem

/-- Witness for C10 at a concrete input: the returned X column `q:a_X` is a
member of the input list. -/
theorem resolver_returns_verbatim_witness : "q:a_X" ∈ ["q:a_X", "b"] :=
  (resolver_returns_verbatim ["q:a_X", "b"] "a").1 "q:a_X" (by decide)

/-- A stored entry for any axis survives any further columns none of which
compares strictly shorter under the code's comparison (stripped new length
against stored original length). -/
theorem foldFound_keep (tok : String) (A : Char) (cols2 : List String) :
    ∀ (f : Char → Option String) (c : String),
    f A = some c →
    (∀ d ∈ cols2, matchAxis tok.data d.data = some A →
      ¬ (removeSpaces d.data).length < c.length) →
    (cols2.foldl (stepFound tok) f) A = some c := by
  induction cols2 with
  | nil => intro f c h _; exact h
  | cons d ds ih =>
    intro f c h h2
    rw [List.foldl_cons]
    refine ih (stepFound tok f d) c ?_ (fun e he hme => h2 e (List.mem_cons_of_mem d he) hme)
    cases hm : matchAxis tok.data d.data with
    | none => rw [stepFound_none tok f d hm]; exact h
    | some a =>
      rw [stepFound_some tok f d a hm A]
      by_cases hAa : A = a
      · rw [if_pos hAa]
        subst hAa
        have hnlt := h2 d (List.mem_cons_self _ _) hm
        rw [h]
        show (if (removeSpaces d.data).length < c.length then some d else some c) = some c
        rw [if_neg hnlt]
      · rw [if_neg hAa]
        exact h

/-- Claim C9: for each of the three axes, a stored candidate is replaced
only by a strictly shorter one under the resolver's length comparison, so
later columns matching the same token and axis that do not compare strictly
shorter (in particular, ones that compare equal) leave the stored first
match in place, and the whole result is deterministic for a fixed column
order. -/
theorem tie_break_first_wins (cols1 cols2 : List String) (tok : String) (c : String) :
    ((find_xyz_cols cols1 tok).1 = some c →
      (∀ d ∈ cols2, matchAxis tok.data d.data = some 'X' →
        ¬ (removeSpaces d.data).length < c.length) →
      (find_xyz_cols (cols1 ++ cols2) tok).1 = some c)
    ∧ ((find_xyz_cols cols1 tok).2.1 = some c →
      (∀ d ∈ cols2, matchAxis tok.data d.data = some 'Y' →
        ¬ (removeSpaces d.data).length < c.length) →
      (find_xyz_cols (cols1 ++ cols2) tok).2.1 = some c)
    ∧ ((find_xyz_cols cols1 tok).2.2 = some c →
      (∀ d ∈ cols2, matchAxis tok.data d.data = some 'Z' →
        ¬ (removeSpaces d.data).length < c.length) →
      (find_xyz_cols (cols1 ++ cols2) tok).2.2 = some c) := by
  refine ⟨?_, ?_, ?_⟩
  · intro h1 h2
    rw [find_xyz_cols_fst, List.foldl_append]
    rw [find_xyz_cols_fst] at h1
    exact foldFound_keep tok 'X' cols2 (cols1.foldl (stepFound tok) (fun _ => none)) c h1 h2
  · intro h1 h2
    rw [find_xyz_cols_snd, List.foldl_append]
    rw [find_xyz_cols_snd] at h1
    exact foldFound_keep tok 'Y' cols2 (cols1.foldl (stepFound tok) (fun _ => none)) c h1 h2
  · intro h1 h2
    rw [find_xyz_cols_thd, List.foldl_append]
    rw [find_xyz_cols_thd] at h1
    exact foldFound_keep tok 'Z' cols2 (cols1.foldl (stepFound tok) (fun _ => none)) c h1 h2

/-- Witness for C9 at concrete inputs, one per axis: the two matching
columns compare equal under the resolver's comparison, and the first one is
kept for X, for Y and for Z. -/
theorem tie_break_first_wins_witness :
    (find_xyz_cols (["a:m_X"] ++ ["b:m_X"]) "m").1 = some "a:m_X"
    ∧ (find_xyz_cols (["a:m_Y"] ++ ["b:m_Y"]) "m").2.1 = some "a:m_Y"
    ∧ (find_xyz_cols (["a:m_Z"] ++ ["b:m_Z"]) "m").2.2 = some "a:m_Z" :=
  ⟨(tie_break_first_wins ["a:m_X"] ["b:m_X"] "m" "a:m_X").1 (by decide) (by decide),
   (tie_break_first_wins ["a:m_Y"] ["b:m_Y"] "m" "a:m_Y").2.1 (by decide) (by decide),
   (tie_break_first_wins ["a:m_Z"] ["b:m_Z"] "m" "a:m_Z").2.2 (by decide) (by decide)⟩

/- The tie-break on space-free labels. -/

/-- On a label without spaces, removing spaces changes nothing. -/
theorem removeSpaces_eq_self (l : List Char) (h : ∀ ch ∈ l, ch ≠ ' ') :
    removeSpaces l = l := by
  unfold removeSpaces
  apply List.filter_eq_self.mpr
  intro ch hch
  simpa using h ch hch

/-- The length of a string is the length of its character list. -/
theorem string_data_length (s : String) : s.data.length = s.length := rfl

/-- On a space-free column, the code's update coincides with the
keep-the-shorter fold of the spec. -/
theorem updFound_eq_keepShorter (o : Option String) (c : String)
    (hc : ∀ ch ∈ c.data, ch ≠ ' ') :
    updFound o c (removeSpaces c.data).length = keepShorter o c := by
  unfold updFound keepShorter
  rw [removeSpaces_eq_self c.data hc, string_data_length]


/-- When every column matching axis `A` is space-free, the axis-`A` entry of
the fold is the keep-the-shorter fold over the columns matching that axis;
non-matching columns never touch the entry, so they may contain spaces. -/
theorem foldFound_filter (tok : String) (A : Char) (cols : List String) :
    ∀ (f : Char → Option String),
    (∀ c ∈ cols, matchAxis tok.data c.data = some A → ∀ ch ∈ c.data, ch ≠ ' ') →
    (cols.foldl (stepFound tok) f) A
      = (cols.filter (fun c => matchAxis tok.data c.data == some A)).foldl
          keepShorter (f A) := by
  induction cols with
  | nil => intro f _; rfl
  | cons d ds ih =>
    intro f h
    have hds : ∀ c ∈ ds, matchAxis tok.data c.data = some A → ∀ ch ∈ c.data, ch ≠ ' ' :=
      fun c hc => h c (List.mem_cons_of_mem d hc)
    rw [List.foldl_cons, List.filter_cons]
    cases hm : matchAxis tok.data d.data with
    | none =>
      rw [if_neg (by simp)]
      rw [stepFound_none tok f d hm]
      exact ih f hds
    | some a =>
      by_cases hAa : a = A
      · subst hAa
        have hd : ∀ ch ∈ d.data, ch ≠ ' ' := h d (List.mem_cons_self _ _) hm
        rw [if_pos (beq_self_eq_true (some a)), List.foldl_cons]
        have hstep : (stepFound tok f d) a = keepShorter (f a) d := by
          rw [stepFound_some tok f d a hm a, if_pos rfl]
          exact updFound_eq_keepShorter (f a) d hd
        rw [ih (stepFound tok f d) hds, hstep]
      · rw [if_neg (by simp [hAa])]
        have hstep : (stepFound tok f d) A = f A := by
          rw [stepFound_some tok f d a hm A, if_neg (fun hh => hAa hh.symm)]
        rw [ih (stepFound tok f d) hds, hstep]

/-- What the keep-the-shorter fold returns: a member of the list (or the
start value), of minimal length among the list's members and not longer
than the start value. -/
theorem keepShorter_min (l : List String) :
    ∀ (acc : Option String) (c : String), l.foldl keepShorter acc = some c →
    (acc = some c ∨ c ∈ l) ∧ (∀ d ∈ l, c.length ≤ d.length)
      ∧ (∀ o, acc = some o → c.length ≤ o.length) := by
  induction l with
  | nil =>
    intro acc c h
    refine ⟨Or.inl h, by simp, ?_⟩
    intro o ho
    rw [List.foldl_nil] at h
    rw [ho] at h
    rw [Option.some.inj h]
  | cons d ds ih =>
    intro acc c h
    rw [List.foldl_cons] at h
    obtain ⟨h1, h2, h3⟩ := ih (keepShorter acc d) c h
    have hkd : ∀ o, keepShorter acc d = some o → c.length ≤ o.length := h3
    refine ⟨?_, ?_, ?_⟩
    · rcases h1 with hk | hmem
      · cases acc with
        | none =>
          have : d = c := Option.some.inj hk
          exact Or.inr (this ▸ List.mem_cons_self _ _)
        | some o =>
          have hk' : (if d.length < o.length then some d else some o) = some c := hk
          split_ifs at hk' with hlen
          · have : d = c := Option.some.inj hk'
            exact Or.inr (this ▸ List.mem_cons_self _ _)
          · exact Or.inl (congrArg some (Option.some.inj hk'))
      · exact Or.inr (List.mem_cons_of_mem d hmem)
    · intro e he
      rcases List.mem_cons.mp he with rfl | hes
      · cases acc with
        | none => exact hkd e rfl
        | some o =>
          by_cases hlen : e.length < o.length
          · refine hkd e ?_
            show (if e.length < o.length then some e else some o) = some e
            rw [if_pos hlen]
          · have hco : c.length ≤ o.length := by
              refine hkd o ?_
              show (if e.length < o.length then some e else some o) = some o
              rw [if_neg hlen]
            omega
      · exact h2 e hes
    · intro o ho
      subst ho
      by_cases hlen : d.length < o.length
      · have hcd : c.length ≤ d.length := by
          refine hkd d ?_
          show (if d.length < o.length then some d else some o) = some d
          rw [if_pos hlen]
        omega
      · refine hkd o ?_
        show (if d.length < o.length then some d else some o) = some o
        rw [if_neg hlen]

/-- Claim C4 (amended): the code replaces a stored candidate only when the
new label's space-stripped length is strictly below the stored label's
original (unstripped) length, so the claimed shortest-stripped-label result
holds when, for an axis, no column matching the token and that axis
contains a space: the component for that axis then equals the earliest
matching column of minimal label length, which is of minimal length among
all matching columns.  Non-matching columns may contain spaces. -/
theorem shortest_label_amended (cols : List String) (tok : String) :
    ((∀ c ∈ cols, matchAxis tok.data c.data = some 'X' → ∀ ch ∈ c.data, ch ≠ ' ') →
      (find_xyz_cols cols tok).1
        = shortestFirst (cols.filter (fun c => matchAxis tok.data c.data == some 'X')))
    ∧ ((∀ c ∈ cols, matchAxis tok.data c.data = some 'Y' → ∀ ch ∈ c.data, ch ≠ ' ') →
      (find_xyz_cols cols tok).2.1
        = shortestFirst (cols.filter (fun c => matchAxis tok.data c.data == some 'Y')))
    ∧ ((∀ c ∈ cols, matchAxis tok.data c.data = some 'Z' → ∀ ch ∈ c.data, ch ≠ ' ') →
      (find_xyz_cols cols tok).2.2
        = shortestFirst (cols.filter (fun c => matchAxis tok.data c.data == some 'Z')))
    ∧ (∀ (l : List String) (c : String), shortestFirst l = some c →
        c ∈ l ∧ ∀ d ∈ l, c.length ≤ d.length) := by
  refine ⟨?_, ?_, ?_, ?_⟩
  · intro h
    rw [find_xyz_cols_fst]
    exact foldFound_filter tok 'X' cols (fun _ => none) h
  · intro h
    rw [find_xyz_cols_snd]
    exact foldFound_filter tok 'Y' cols (fun _ => none) h
  · intro h
    rw [find_xyz_cols_thd]
    exact foldFound_filter tok 'Z' cols (fun _ => none) h
  · intro l c hsf
    obtain ⟨h1, h2, _⟩ := keepShorter_min l none c hsf
    rcases h1 with h1 | h1
    · cases h1
    · exact ⟨h1, h2⟩

/-- Witness for the amended C4 at a concrete header-like input: the
non-matching column `Sub Frame` contains a space, the matching columns
`b:m_X` and `m_X` do not, and the shorter match `m_X` is returned. -/
theorem shortest_label_amended_witness :
    (find_xyz_cols ["Sub Frame", "b:m_X", "m_X"] "m").1
      = shortestFirst (["Sub Frame", "b:m_X", "m_X"].filter
          (fun c => matchAxis "m".data c.data == some 'X')) :=
  (shortest_label_amended ["Sub Frame", "b:m_X", "m_X"] "m").1 (by decide)

/-- Counterexample to C4 as stated: with columns `m_X``(six spaces)` and
`q:m_X` and token `m`, the code compares the new stripped length 5 against
the stored original length 9 (not the stored stripped length 3), replaces
the stored candidate, and returns `q:m_X`, although the other matching
column's whitespace-stripped label is strictly shorter. -/
theorem shortest_label_cex :
    (find_xyz_cols ["m_X      ", "q:m_X"] "m").1 = some "q:m_X"
    ∧ matchAxis "m".data "m_X      ".data = some 'X'
    ∧ (removeSpaces "m_X      ".data).length < (removeSpaces "q:m_X".data).length := by
  refine ⟨by decide, by decide, by decide⟩

/- Occurrence counting for the amended prefix-tolerance claim. -/

/-- A case-insensitive match at some position gives at least one counted
occurrence. -/
theorem countSubCI_pos (pat : List Char) :
    ∀ (u v : List Char), isCIPrefix pat v = true → 1 ≤ countSubCI pat (u ++ v) := by
  intro u
  induction u with
  | nil =>
    intro v h
    cases v with
    | nil => simp [countSubCI, h]
    | cons c cs => simp [countSubCI, h]
  | cons d ds ih =>
    intro v h
    rw [List.cons_append, countSubCI]
    have h1 := ih v h
    split_ifs <;> omega

/-- Two case-insensitive matches at distinct positions give at least two
counted occurrences. -/
theorem countSubCI_two (pat : List Char) :
    ∀ (l u1 v1 u2 v2 : List Char),
    l = u1 ++ v1 → l = u2 ++ v2 →
    isCIPrefix pat v1 = true → isCIPrefix pat v2 = true →
    u1.length < u2.length → 2 ≤ countSubCI pat l := by
  intro l
  induction l with
  | nil =>
    intro u1 v1 u2 v2 h1 h2 hp1 hp2 hlt
    have e1 : u1.length + v1.length = 0 := by
      have := congrArg List.length h1
      simpa using this.symm
    have e2 : u2.length + v2.length = 0 := by
      have := congrArg List.length h2
      simpa using this.symm
    omega
  | cons c cs ih =>
    intro u1 v1 u2 v2 h1 h2 hp1 hp2 hlt
    cases u1 with
    | nil =>
      cases u2 with
      | nil => simp at hlt
      | cons d u2' =>
        rw [List.nil_append] at h1
        rw [List.cons_append] at h2
        have hcs : cs = u2' ++ v2 := (List.cons.inj h2).2
        rw [countSubCI]
        have hone : isCIPrefix pat (c :: cs) = true := by
          rw [← h1] at hp1
          exact hp1
        rw [if_pos hone]
        have := countSubCI_pos pat u2' v2 hp2
        rw [← hcs] at this
        omega
    | cons e u1' =>
      cases u2 with
      | nil => simp at hlt
      | cons d u2' =>
        rw [List.cons_append] at h1 h2
        have hcs1 : cs = u1' ++ v1 := (List.cons.inj h1).2
        have hcs2 : cs = u2' ++ v2 := (List.cons.inj h2).2
        have hlt' : u1'.length < u2'.length := by
          simpa using hlt
        have h2le := ih u1' v1 u2' v2 hcs1 hcs2 hp1 hp2 hlt'
        rw [countSubCI]
        split_ifs <;> omega

/-- When the pattern occurs exactly once, any two matching suffixes agree. -/
theorem countSubCI_unique (pat l u1 v1 u2 v2 : List Char)
    (hc : countSubCI pat l = 1)
    (h1 : l = u1 ++ v1) (h2 : l = u2 ++ v2)
    (hp1 : isCIPrefix pat v1 = true) (hp2 : isCIPrefix pat v2 = true) :
    v1 = v2 := by
  rcases Nat.lt_trichotomy u1.length u2.length with hlt | heq | hgt
  · have := countSubCI_two pat l u1 v1 u2 v2 h1 h2 hp1 hp2 hlt
    omega
  · have h12 : u1 ++ v1 = u2 ++ v2 := h1.symm.trans h2
    exact (List.append_inj h12 heq).2
  · have := countSubCI_two pat l u2 v2 u1 v1 h2 h1 hp2 hp1 hgt
    omega

/-- Claim C3 (amended): a column `P:T_X` resolves for token `T`, axis X, for
any prefix `P`, provided the token contains no space character and the
search pattern `T` followed by an underscore occurs (case-insensitively)
only once in the space-stripped label, namely at its end; the proviso is
forced because the regex takes the first match in the label, so a prefix
that itself contains an earlier `T_`-match for another axis captures the
column for that axis instead. -/
theorem prefix_tolerance_amended (cols : List String) (P T : String)
    (hT : ∀ ch ∈ T.data, ch ≠ ' ')
    (huniq : countSubCI (T.data ++ ['_'])
      (removeSpaces (P ++ ":" ++ T ++ "_X").data) = 1)
    (hmem : (P ++ ":" ++ T ++ "_X") ∈ cols) :
    ((find_xyz_cols cols T).1).isSome = true := by
  have hdat : (P ++ ":" ++ T ++ "_X").data
      = P.data ++ ':' :: (T.data ++ ['_', 'X']) := by
    rw [String.data_append, String.data_append, String.data_append]
    show P.data ++ [':'] ++ T.data ++ ['_', 'X'] = P.data ++ ':' :: (T.data ++ ['_', 'X'])
    simp
  have hrs : removeSpaces ((P ++ ":" ++ T ++ "_X").data)
      = removeSpaces P.data ++ ':' :: (T.data ++ ['_', 'X']) := by
    rw [hdat]
    unfold removeSpaces
    rw [List.filter_append]
    congr 1
    rw [List.filter_cons]
    rw [if_pos (by decide)]
    congr 1
    rw [List.filter_append]
    rw [List.filter_eq_self.mpr (fun ch hch => by simpa using hT ch hch)]
    congr 1
  have hta : tokAxis T.data (T.data ++ ['_', 'X']) = some 'X' := tokAxis_self T.data
  have hws : (wsThenTok T.data (T.data ++ ['_', 'X'])).isSome = true :=
    wsThenTok_isSome T.data (T.data ++ ['_', 'X']) 'X' hta
  have hmatch : ∃ a, matchAxis T.data (P ++ ":" ++ T ++ "_X").data = some a := by
    apply Option.isSome_iff_exists.mp
    unfold matchAxis
    rw [hrs]
    exact reScan_isSome T.data (removeSpaces P.data) (T.data ++ ['_', 'X']) true hws
  obtain ⟨a, ha⟩ := hmatch
  have haX : a = 'X' := by
    have ha' : reScan T.data true (removeSpaces (P ++ ":" ++ T ++ "_X").data) = some a := ha
    obtain ⟨u, v, hl, hw, _⟩ :=
      reScan_sound T.data (removeSpaces (P ++ ":" ++ T ++ "_X").data) true a ha'
    obtain ⟨ws, rest, hv, _, hta2⟩ := wsThenTok_sound T.data v a hw
    obtain ⟨mid, ax, rest2, hrest, hmap, _, _, haup⟩ := tokAxis_sound T.data rest a hta2
    have hp1 : isCIPrefix (T.data ++ ['_']) (mid ++ '_' :: ax :: rest2) = true := by
      unfold isCIPrefix
      rw [stripTokCI_append T.data ['_'] (mid ++ '_' :: ax :: rest2)]
      rw [stripTokCI_complete T.data mid ('_' :: ax :: rest2) hmap]
      simp [stripTokCI]
    have hp2 : isCIPrefix (T.data ++ ['_']) (T.data ++ ['_', 'X']) = true := by
      unfold isCIPrefix
      have hsplit : T.data ++ ['_', 'X'] = (T.data ++ ['_']) ++ ['X'] := by simp
      rw [hsplit, stripTokCI_complete (T.data ++ ['_']) (T.data ++ ['_']) ['X'] rfl]
      rfl
    have hsplit1 : removeSpaces ((P ++ ":" ++ T ++ "_X").data)
        = (u ++ ws) ++ (mid ++ '_' :: ax :: rest2) := by
      rw [hl, hv, hrest]
      simp
    have hsplit2 : removeSpaces ((P ++ ":" ++ T ++ "_X").data)
        = (removeSpaces P.data ++ [':']) ++ (T.data ++ ['_', 'X']) := by
      rw [hrs]
      simp
    have hveq : mid ++ '_' :: ax :: rest2 = T.data ++ ['_', 'X'] :=
      countSubCI_unique (T.data ++ ['_']) (removeSpaces ((P ++ ":" ++ T ++ "_X").data))
        (u ++ ws) (mid ++ '_' :: ax :: rest2) (removeSpaces P.data ++ [':'])
        (T.data ++ ['_', 'X']) huniq hsplit1 hsplit2 hp1 hp2
    have hmidlen : mid.length = T.data.length := by
      have := congrArg List.length hmap
      simpa using this
    have htail : '_' :: ax :: rest2 = ['_', 'X'] := (List.append_inj hveq hmidlen).2
    have hax : ax = 'X' := (List.cons.inj (List.cons.inj htail).2).1
    rw [haup, hax]
    rfl
  rw [haX] at ha
  rw [find_xyz_cols_fst]
  exact foldFound_complete T cols (fun _ => none) 'X' (P ++ ":" ++ T ++ "_X") hmem ha

/-- Witness for the amended C3 at a concrete input: `Subject 1:wrist_L_X`
resolves for token `wrist_L`. -/
theorem prefix_tolerance_amended_witness :
    ((find_xyz_cols ["Subject 1:wrist_L_X"] "wrist_L").1).isSome = true :=
  prefix_tolerance_amended ["Subject 1:wrist_L_X"] "Subject 1" "wrist_L"
    (by decide) (by decide) (by decide)

/-- Counterexample to C3 as stated: for `P = w_Y` and `T = w` the label
`P:T_X` is `w_Y:w_X`, whose first regex match is `w_Y` at the start, so the
column is stored under axis Y and the X component stays absent. -/
theorem prefix_tolerance_cex :
    (find_xyz_cols ["w_Y" ++ ":" ++ "w" ++ "_X"] "w").1 = none := by decide

/- The motion quantity calculator. -/

/-- The step length of a difference row is the Euclidean distance of the
corresponding pair of sample points. -/
theorem stepLen_subR3 (p q : Option ℝ × Option ℝ × Option ℝ) :
    stepLen (subR3 q p) = euclidStep p q := by
  obtain ⟨px, py, pz⟩ := p
  obtain ⟨qx, qy, qz⟩ := q
  cases px <;> cases py <;> cases pz <;> cases qx <;> cases qy <;> cases qz <;>
    simp only [stepLen, subR3, osub, omul, oadd, osqrt, euclidStep]
  case some.some.some.some.some.some a b c d e f =>
    have harg : (d - a) * (d - a) + (e - b) * (e - b) + (f - c) * (f - c)
        = (d - a) ^ 2 + (e - b) ^ 2 + (f - c) ^ 2 := by ring
    rw [harg]

/-- The list of step lengths equals the list of per-pair Euclidean
distances, pair by pair. -/
theorem motion_steps_eq (rows : List (Option ℝ × Option ℝ × Option ℝ)) :
    (List.zipWith subR3 rows.tail rows).map stepLen
      = (rows.zip rows.tail).map (fun pq => euclidStep pq.1 pq.2) := by
  induction rows with
  | nil => rfl
  | cons a rest ih =>
    cases rest with
    | nil => rfl
    | cons b r =>
      show stepLen (subR3 b a) :: (List.zipWith subR3 r (b :: r)).map stepLen
        = euclidStep a b :: ((b :: r).zip r).map (fun pq => euclidStep pq.1 pq.2)
      rw [stepLen_subR3 a b]
      congr 1

/-- Claim C5: `motion_quantity_point` returns the sum, over pairs of
temporally consecutive rows, of the Euclidean distance between the two 3D
points, including exactly the steps whose computed distance is finite
(steps with a missing or non-finite endpoint are excluded), together with
the count of included steps; being a total function of the rows, it never
raises on missing data and only reports a reduced step count. -/
theorem motion_quantity_spec (rows : List (Option ℝ × Option ℝ × Option ℝ)) :
    motion_quantity_point rows = motionSpec rows := by
  unfold motion_quantity_point motionSpec
  rw [motion_steps_eq rows]
  simp only [List.filterMap_map, Function.id_comp]

/- Failure on short files and the all-missing column drop. -/

/-- Claim C6 (amended): on a file with fewer than five lines, reading the
header fails — but with the propagated `StopIteration` of the header-line
iterator, not with a `MalformedHeaderError`, which the code never defines. -/
theorem short_file_fails (α : Type) (headerRows : List (List String))
    (dataRows : List (List (Option α)))
    (h : headerRows.length < 5) :
    read_vicon_csv headerRows dataRows = .error .stopIteration := by
  unfold read_vicon_csv read_header_rows
  rw [if_pos h]

/-- Witness for the amended C6 at a concrete three-line file. -/
theorem short_file_fails_witness :
    read_vicon_csv [["Trajectories"], ["100"], ["markers"]]
      ([] : List (List (Option Nat))) = .error .stopIteration :=
  short_file_fails Nat [["Trajectories"], ["100"], ["markers"]] [] (by decide)

/-- Counterexample to C6 as stated: on a concrete file with three lines the
reader fails with the error modelling `StopIteration`, which is not the
`MalformedHeaderError` the claim names. -/
theorem malformed_header_cex :
    read_vicon_csv [["Trajectories"], ["100"], ["markers"]]
        ([] : List (List (Option Nat))) = Except.error PyError.stopIteration
    ∧ (Except.error PyError.stopIteration
        : Except PyError (List (String × List (Option Nat))))
      ≠ Except.error PyError.malformedHeaderError := by
  refine ⟨rfl, ?_⟩
  intro hcontra
  exact PyError.noConfusion (Except.error.inj hcontra)

/-- Claim C7: a column whose value is missing in every row does not appear
in the loaded table: it is not a member of the table after the drop step,
and every column of the loaded table has some non-missing value. -/
theorem all_missing_dropped (α : Type) (colnames : List String)
    (rows : List (List (Option α))) :
    (∀ col ∈ mkTable colnames rows, (∀ v ∈ col.2, v = none) →
      col ∉ load_table colnames rows)
    ∧ (∀ col ∈ load_table colnames rows, ∃ v ∈ col.2, v.isSome = true) := by
  constructor
  · intro col _ hall hcontra
    unfold load_table dropna_all at hcontra
    have hany := (List.mem_filter.mp hcontra).2
    rw [List.any_eq_true] at hany
    obtain ⟨v, hv, hsome⟩ := hany
    rw [hall v hv] at hsome
    cases hsome
  · intro col hmem
    unfold load_table dropna_all at hmem
    have hany := (List.mem_filter.mp hmem).2
    rw [List.any_eq_true] at hany
    exact hany

/-- Witness for C7 at a concrete table: the all-missing column `b` is gone
after loading. -/
theorem all_missing_dropped_witness :
    ("b", [none, none]) ∉ load_table ["a", "b"]
      [[some (1 : Nat), none], [some 2, none]] :=
  (all_missing_dropped Nat ["a", "b"] [[some 1, none], [some 2, none]]).1
    ("b", [none, none]) (by decide) (by decide)

/- Decoding tolerance. -/

/-- Claim C8 (amended): the five header lines are decoded tolerantly — on
clean input the strict and tolerant decoders agree, and on input with an
invalid sequence the header decoder substitutes the replacement character
and never fails — while the data rows are decoded strictly by the parsing
library's default, so an invalid sequence there is fatal. -/
theorem decode_tolerance_amended (bs : List ByteUnit) :
    (ByteUnit.invalid ∉ bs → data_decode bs = .ok (header_decode bs))
    ∧ (ByteUnit.invalid ∈ bs →
        data_decode bs = .error .unicodeDecodeError
        ∧ replacementChar ∈ header_decode bs) := by
  induction bs with
  | nil =>
    constructor
    · intro _; rfl
    · intro h; cases h
  | cons b r ih =>
    constructor
    · intro h
      cases b with
      | invalid => exact absurd (List.mem_cons_self _ _) h
      | chr c =>
        have hr : ByteUnit.invalid ∉ r := fun hh => h (List.mem_cons_of_mem _ hh)
        show (match data_decode r with
          | .ok cs => Except.ok (c :: cs)
          | .error e => .error e) = .ok (c :: header_decode r)
        rw [ih.1 hr]
    · intro h
      cases b with
      | invalid =>
        refine ⟨rfl, ?_⟩
        show replacementChar ∈ replacementChar :: header_decode r
        exact List.mem_cons_self _ _
      | chr c =>
        have hr : ByteUnit.invalid ∈ r := by
          rcases List.mem_cons.mp h with hh | hh
          · cases hh
          · exact hh
        obtain ⟨h1, h2⟩ := ih.2 hr
        constructor
        · show (match data_decode r with
            | .ok cs => Except.ok (c :: cs)
            | .error e => .error e) = .error .unicodeDecodeError
          rw [h1]
        · show replacementChar ∈ c :: header_decode r
          exact List.mem_cons_of_mem _ h2

/-- Witness for the amended C8 at concrete byte streams: a clean stream
decodes identically in both modes, and a stream with an invalid unit is
fatal for the data decoder while the header decoder substitutes. -/
theorem decode_tolerance_amended_witness :
    data_decode [ByteUnit.chr 'b'] = .ok (header_decode [ByteUnit.chr 'b'])
    ∧ (data_decode [ByteUnit.invalid] = .error .unicodeDecodeError
       ∧ replacementChar ∈ header_decode [ByteUnit.invalid]) :=
  ⟨(decode_tolerance_amended [ByteUnit.chr 'b']).1 (by decide),
   (decode_tolerance_amended [ByteUnit.invalid]).2 (by decide)⟩

/-- Counterexample to C8 as stated: on a concrete stream with an invalid
byte sequence among the data rows, the data-side decode fails with a
`UnicodeDecodeError` instead of substituting, while the header-side decode
of the same stream substitutes the replacement character. -/
theorem decode_claim_cex :
    data_decode [ByteUnit.chr 'a', ByteUnit.invalid]
      = Except.error PyError.unicodeDecodeError
    ∧ header_decode [ByteUnit.chr 'a', ByteUnit.invalid] = ['a', replacementChar] :=
  ⟨rfl, rfl⟩
